import Mathlib

/-!
Verification of the HostHeaderFuzzer orchestration pipeline
(src/HostHeaderFuzzer.py) against its natural-language specification.

Strings are embedded as lists of characters (`Str`), matching Python's
string model; Python `None`-able values become `Option`; the filesystem,
the network and the external `ffuf` process are modelled as an explicit
environment record, and methods that mutate `self` are embedded as
functions from the fuzzer state to a new fuzzer state.
-/

namespace HostHeaderFuzzer

/-- Python strings, embedded as lists of characters. -/
abbrev Str := List Char

/-- Shorthand turning a Lean string literal into the `Str` embedding. -/
def str (s : String) : Str := s.data

/-- ASCII whitespace recognised by Python's `str.strip()` / `str.split()`. -/
def isSpace (c : Char) : Bool :=
  c = ' ' || c = '\t' || c = '\n' || c = '\r' || c = '\x0b' || c = '\x0c'

/-- Python `s.strip()`: drop leading and trailing whitespace. -/
def pyStrip (s : Str) : Str :=
  ((s.dropWhile isSpace).reverse.dropWhile isSpace).reverse

/-- Python `s.replace(".%s", "")`: remove every occurrence of the literal
`.%s` marker, scanning left to right, non-overlapping. -/
def removeMarker : Str → Str
  | '.' :: '%' :: 's' :: rest => removeMarker rest
  | c :: rest => c :: removeMarker rest
  | [] => []

/-- One line of the cleaning comprehension in `_download_default_wordlist`:
`line.replace(".%s", "").strip()`. -/
def cleanLine (s : Str) : Str := pyStrip (removeMarker s)

/-- Python truthiness test `if line.strip()` used to keep a raw line. -/
def lineKept (s : Str) : Bool := !(pyStrip s).isEmpty

/-- The cleaning comprehension of `_download_default_wordlist`:
`[line.replace(".%s", "").strip() for line in text.splitlines() if line.strip()]`. -/
def cleanWordlist (lines : List Str) : List Str :=
  (lines.filter lineKept).map cleanLine

/-- Whether `.%s` occurs somewhere in the string (three consecutive
characters `.`, `%`, `s`). -/
def hasMarker : Str → Bool
  | '.' :: '%' :: 's' :: _ => true
  | _ :: rest => hasMarker rest
  | [] => false

/-- `url.startswith(("http://", "https://"))`. -/
def hasScheme (url : Str) : Bool :=
  (str "http://").isPrefixOf url || (str "https://").isPrefixOf url

/-- The normalisation step of `_validate_url`: prepend `http://` when the
URL does not already start with `http://` or `https://`. -/
def normalizeUrl (url : Str) : Str :=
  if hasScheme url then url else str "http://" ++ url

/-- `urllib.parse.urlparse(url).netloc` for a URL carrying an `http://` or
`https://` scheme (the only URLs this program parses, by construction):
the text between `//` and the next `/`, `?` or `#`. -/
def netlocOf (url : Str) : Str :=
  let rest :=
    if (str "http://").isPrefixOf url then url.drop 7
    else if (str "https://").isPrefixOf url then url.drop 8
    else []
  rest.takeWhile (fun c => !(c = '/' || c = '?' || c = '#'))

/-- `_validate_url`: normalise, then `sys.exit(1)` (modelled as `none`)
when the parsed netloc is empty. -/
def validateUrl (url : Str) : Option Str :=
  let u := normalizeUrl url
  if (netlocOf u).isEmpty then none else some u

/-- `parsed_url.netloc.split(":")[0]`: the netloc truncated at the first
colon (the base domain, port stripped). -/
def targetDomainOf (u : Str) : Str :=
  (netlocOf u).takeWhile (fun c => !(c = ':'))

/-- The state held by the `HostHeaderFuzzer` object. -/
structure Fuzzer where
  target_url : Str
  target_domain : Str
  static_wordlist_path : Option Str
  subdomain_wordlist_path : Option Str
  ffuf_path : Str
  final_output_path : Option Str
  ffuf_options : Str
  match_codes_str : Str
  temp_ffuf_output_files : List Str
deriving DecidableEq

/-- Python truthiness of an optional string (`None` and `""` are falsy). -/
def optFilled : Option Str → Bool
  | none => false
  | some s => !s.isEmpty

/-- `HostHeaderFuzzer.__init__`: validate the URL (fatal exit modelled as
`none`), derive the base domain, store the configuration, and start with
an empty list of tracked per-mode output files. -/
def initFuzzer (target_url : Str) (static_wordlist subdomain_wordlist : Option Str)
    (ffuf_path : Str) (output_file : Option Str) (ffuf_options : Str)
    (match_codes : Str) : Option Fuzzer :=
  (validateUrl target_url).map fun u =>
    { target_url := u
      target_domain := targetDomainOf u
      static_wordlist_path := static_wordlist
      subdomain_wordlist_path := subdomain_wordlist
      ffuf_path := ffuf_path
      final_output_path := output_file
      ffuf_options := ffuf_options
      match_codes_str := match_codes
      temp_ffuf_output_files := [] }

/-- The three fuzzing modes of `run_fuzzing` / `_build_ffuf_command`. -/
inductive Mode where
  | static
  | static_append
  | subdomain
deriving DecidableEq

/-- The mode name string used to derive the per-mode output filename. -/
def modeName : Mode → Str
  | .static => str "static"
  | .static_append => str "static_append"
  | .subdomain => str "subdomain"

/-- The `Host` header template chosen per mode in `_build_ffuf_command`. -/
def hostHeader (m : Mode) (domain : Str) : Str :=
  match m with
  | .static => str "Host: FUZZ"
  | .static_append => str "Host: FUZZ." ++ domain
  | .subdomain => str "Host: FUZZ"

/-- Python `s.split()`: split on runs of whitespace, dropping empty
pieces. The accumulator holds the current word, reversed. -/
def pySplitAux : Str → Str → List Str
  | [], acc => if acc.isEmpty then [] else [acc.reverse]
  | c :: rest, acc =>
    if isSpace c then
      if acc.isEmpty then pySplitAux rest [] else acc.reverse :: pySplitAux rest []
    else pySplitAux rest (c :: acc)

/-- Python `s.split()` with no argument. -/
def pySplit (s : Str) : List Str := pySplitAux s []

/-- The options owned by the planner, filtered out of user pass-through
options in `_build_ffuf_command`: `("-mc", "-o", "-of", "-s")`. -/
def reservedOpts : List Str := [str "-mc", str "-o", str "-of", str "-s"]

/-- `[opt for opt in self.ffuf_options.split() if opt not in ("-mc", "-o", "-of", "-s")]`. -/
def extraOptsOf (opts : Str) : List Str :=
  (pySplit opts).filter (fun t => decide (t ∉ reservedOpts))

/-- The fixed part of the command `_build_ffuf_command` assembles before
user pass-through options, together with the optional per-mode structured
output path. -/
def plannerTokens (f : Fuzzer) (m : Mode) (wordlist ffufExec : Str) :
    List Str × Option Str :=
  let base := [ffufExec, str "-u", f.target_url, str "-w", wordlist,
               str "-mc", f.match_codes_str, str "-s",
               str "-H", hostHeader m f.target_domain]
  match f.final_output_path with
  | some p =>
      if p.isEmpty then (base, none)
      else
        let temp := p ++ str "_" ++ modeName m ++ str ".json"
        (base ++ [str "-o", temp, str "-of", str "json"], some temp)
  | none => (base, none)

/-- `_build_ffuf_command`: the planner's own tokens, then (when the
`ffuf_options` string is non-empty) the sanitised user tokens. Returns the
command and the per-mode structured output path, if one was requested. -/
def buildFfufCommand (f : Fuzzer) (m : Mode) (wordlist ffufExec : Str) :
    List Str × Option Str :=
  let extra := if f.ffuf_options.isEmpty then [] else extraOptsOf f.ffuf_options
  ((plannerTokens f m wordlist ffufExec).1 ++ extra,
   (plannerTokens f m wordlist ffufExec).2)

/-- One parsed entry of a per-mode ffuf JSON result file. Only the fields
the consolidation logic reads are modelled; `none` stands for a missing
key (Python `dict.get` returning `None`). -/
structure Record where
  status : Option Int
  length : Option Int
  host : Option Str
deriving DecidableEq

/-- The deduplication key `(r.get("status"), r.get("length"))`. -/
def keyOf (r : Record) : Option Int × Option Int := (r.status, r.length)

/-- Whether a record carries both a status and a length
(`None not in key`). -/
def validRec (r : Record) : Bool := r.status.isSome && r.length.isSome

/-- The body of the consolidation loop: append the record and remember its
key when both fields are present and the key is unseen, else skip it. -/
def dedupStep (acc : List Record × List (Option Int × Option Int)) (r : Record) :
    List Record × List (Option Int × Option Int) :=
  let key := keyOf r
  if key.1 ≠ none ∧ key.2 ≠ none ∧ key ∉ acc.2 then
    (acc.1 ++ [r], key :: acc.2)
  else acc

/-- The scan of `_consolidate_results` over the tracked files, in order:
a file whose contents are `none` failed to open or parse and is skipped
(`except Exception: pass`); each parsed file contributes its `results`
records in order. -/
def consolidateFrom (files : List (Option (List Record))) : List Record :=
  (files.foldl
    (fun acc file =>
      match file with
      | none => acc
      | some recs => recs.foldl dedupStep acc)
    ([], [])).1

/-- All records of the parseable files, in scan order. -/
def allRecords (files : List (Option (List Record))) : List Record :=
  (files.filterMap id).flatten

/-- The sort key `(x.get("status", 0), x.get("host", ""))`, first part. -/
def statusKey (r : Record) : Int := r.status.getD 0

/-- The sort key `(x.get("status", 0), x.get("host", ""))`, second part. -/
def hostKey (r : Record) : Str := r.host.getD []

/-- Python string comparison `a <= b`: lexicographic by code point. -/
def lexLe : Str → Str → Bool
  | [], _ => true
  | _ :: _, [] => false
  | a :: as_, b :: bs =>
    if a < b then true
    else if a = b then lexLe as_ bs
    else false

/-- Python tuple comparison on the sort keys: the ordering used by
`results.sort(key=lambda x: (x.get("status", 0), x.get("host", "")))`. -/
def sortLE (a b : Record) : Bool :=
  decide (statusKey a < statusKey b) ||
    (decide (statusKey a = statusKey b) && lexLe (hostKey a) (hostKey b))

/-- `_consolidate_results`: nothing is written when no output base path is
set (Python truthiness) or no per-mode file was tracked; otherwise the
tracked files are scanned and deduplicated, and when any record survived,
the stably sorted sequence is written (modelled as the returned value).
`parseFile` models reading and JSON-parsing one tracked file. -/
def consolidateResults (parseFile : Str → Option (List Record)) (f : Fuzzer) :
    Option (List Record) :=
  if !(optFilled f.final_output_path) || f.temp_ffuf_output_files.isEmpty then none
  else
    let results := consolidateFrom (f.temp_ffuf_output_files.map parseFile)
    if results.isEmpty then none
    else some (results.mergeSort sortLE)

/-- The external world as `run_fuzzing` observes it: whether `shutil.which`
resolves the ffuf executable (and to what), what `_download_default_wordlist`
returns, which paths `os.path.isfile` accepts, whether a mode's ffuf run
exits 0 and leaves a non-empty output file, and what each per-mode result
file parses to. -/
structure Env where
  ffufResolved : Option Str
  downloadResult : Option Str
  isFile : Str → Bool
  probeOk : Mode → Bool
  parseFile : Str → Option (List Record)

/-- One probe invocation performed by `run_fuzzing`: the mode, the
wordlist it was paired with, the assembled command, and the structured
output path requested from ffuf (if any). -/
structure Invocation where
  mode : Mode
  wordlist : Str
  cmd : List Str
  tempOut : Option Str
deriving DecidableEq

/-- The only fatal condition inside `run_fuzzing` itself:
`_check_ffuf` calls `sys.exit(1)` when the executable is not found. -/
inductive RunError where
  | ffufNotFound
deriving DecidableEq

/-- `_build_ffuf_command` followed by `_run_ffuf` for one mode: the
command is executed, and the temp output path is appended to the tracked
list exactly when a path was requested and the run exited 0 with a
non-empty output file. -/
def runMode (env : Env) (ffufExec : Str) (acc : List Invocation × Fuzzer)
    (m : Mode) (wordlist : Str) : List Invocation × Fuzzer :=
  let f := acc.2
  let cmd := (buildFfufCommand f m wordlist ffufExec).1
  let temp := (buildFfufCommand f m wordlist ffufExec).2
  let f' :=
    match temp with
    | some t =>
        if env.probeOk m then
          { f with temp_ffuf_output_files := f.temp_ffuf_output_files ++ [t] }
        else f
    | none => f
  (acc.1 ++ [⟨m, wordlist, cmd, temp⟩], f')

/-- `run_fuzzing` line 166: a static wordlist is usable when the path is
set (truthy) and names a regular file; the path may have been filled in by
the default download just before. -/
def staticAvailable (env : Env) (f : Fuzzer) : Bool :=
  optFilled f.static_wordlist_path && env.isFile (f.static_wordlist_path.getD [])

/-- `run_fuzzing` line 167, for the subdomain wordlist. -/
def subdomainAvailable (env : Env) (f : Fuzzer) : Bool :=
  optFilled f.subdomain_wordlist_path && env.isFile (f.subdomain_wordlist_path.getD [])

/-- `run_fuzzing`: resolve ffuf (fatal when missing), fall back to the
downloaded default static wordlist, run `static` and `static_append` with
the static wordlist when it is usable, then `subdomain` with the subdomain
wordlist when that is usable, and finally consolidate. Returns the
invocations performed, the final fuzzer state, and the consolidated
report (if one was written). -/
def runFuzzing (env : Env) (f0 : Fuzzer) :
    Except RunError (List Invocation × Fuzzer × Option (List Record)) :=
  match env.ffufResolved with
  | none => .error .ffufNotFound
  | some ffufExec =>
    let f1 :=
      if optFilled f0.static_wordlist_path then f0
      else { f0 with static_wordlist_path := env.downloadResult }
    let staticModes := staticAvailable env f1
    let subdomainMode := subdomainAvailable env f1
    let swl := f1.static_wordlist_path.getD []
    let dwl := f1.subdomain_wordlist_path.getD []
    let acc0 : List Invocation × Fuzzer := ([], f1)
    let acc1 :=
      if staticModes then
        runMode env ffufExec (runMode env ffufExec acc0 .static swl) .static_append swl
      else acc0
    let acc2 :=
      if subdomainMode then runMode env ffufExec acc1 .subdomain dwl else acc1
    let report := consolidateResults env.parseFile acc2.2
    .ok (acc2.1, acc2.2, report)

/-- Disk contents: a map from path to file content. -/
abbrev FileSystem := Str → Option Str

/-- `cleanup`, embedded with the filesystem passed explicitly: the method
body is the single assignment `self._temp_ffuf_output_files = []`, which
touches no file, so the filesystem component passes through unchanged. -/
def cleanup (f : Fuzzer) (fs : FileSystem) : Fuzzer × FileSystem :=
  ({ f with temp_ffuf_output_files := [] }, fs)

/-! Helper definitions used by the proofs. -/

/-- Recursive reformulation of the consolidation scan, proved equal to
`consolidateFrom` below: the retained records, given the keys already seen. -/
def dedupScan (seen : List (Option Int × Option Int)) : List Record → List Record
  | [] => []
  | r :: rest =>
    if (keyOf r).1 ≠ none ∧ (keyOf r).2 ≠ none ∧ keyOf r ∉ seen then
      r :: dedupScan (keyOf r :: seen) rest
    else dedupScan seen rest

/-- Companion to `dedupScan`: the seen-key set after scanning a list. -/
def seenScan (seen : List (Option Int × Option Int)) : List Record → List (Option Int × Option Int)
  | [] => seen
  | r :: rest =>
    if (keyOf r).1 ≠ none ∧ (keyOf r).2 ≠ none ∧ keyOf r ∉ seen then
      seenScan (keyOf r :: seen) rest
    else seenScan seen rest

/-- The ordering the specification claims for adjacent records of the
consolidated report: status ascending, and host ascending (missing host
read as the empty string) among equal statuses. -/
def specOrder (a b : Record) : Prop :=
  statusKey a ≤ statusKey b ∧ (statusKey a = statusKey b → lexLe (hostKey a) (hostKey b) = true)

instance : DecidableRel specOrder := by
  unfold specOrder
  infer_instance

/-- Modelled from the spec's words, for comparison with `cleanLine` only:
strip leading/trailing whitespace, then remove one literal `.%s` marker
only when it appears at the very end of the line. -/
def claimedCleanLine (s : Str) : Str :=
  let t := pyStrip s
  if (str ".%s").isSuffixOf t then t.dropLast.dropLast.dropLast else t

/-- Modelled from the spec's words, for comparison with `cleanWordlist`
only: the per-line rule of `claimedCleanLine` over the non-blank lines. -/
def claimedCleanWordlist (lines : List Str) : List Str :=
  (lines.filter lineKept).map claimedCleanLine

/-- The mode plan `run_fuzzing` executes, paired with the wordlist each
mode uses, expressed from the availability flags. -/
def planOf (env : Env) (f0 : Fuzzer) : List (Mode × Str) :=
  let f1 :=
    if optFilled f0.static_wordlist_path then f0
    else { f0 with static_wordlist_path := env.downloadResult }
  (if staticAvailable env f1 then
      [(Mode.static, f1.static_wordlist_path.getD []),
       (Mode.static_append, f1.static_wordlist_path.getD [])]
    else []) ++
  (if subdomainAvailable env f1 then
      [(Mode.subdomain, f1.subdomain_wordlist_path.getD [])]
    else [])

/-! Concrete data used by witnesses and counterexamples. -/

/-- A record found by one probe: status 301, length 5, host `bb`. -/
def recA : Record := { status := some 301, length := some 5, host := some (str "bb") }

/-- A record found by another probe: status 200, length 7, host `aa`. -/
def recB : Record := { status := some 200, length := some 7, host := some (str "aa") }

/-- A minimal fuzzer state for `http://example.com`, no optional inputs. -/
def fzBase : Fuzzer :=
  { target_url := str "http://example.com"
    target_domain := str "example.com"
    static_wordlist_path := none
    subdomain_wordlist_path := none
    ffuf_path := str "ffuf"
    final_output_path := none
    ffuf_options := []
    match_codes_str := str "200,301"
    temp_ffuf_output_files := [] }

/-- A fuzzer state that requested a report and tracked one result file. -/
def fzReport : Fuzzer :=
  { fzBase with
    final_output_path := some (str "out")
    temp_ffuf_output_files := [str "out_static.json"] }

/-- A parse function returning two records for every tracked file. -/
def parseTwo : Str → Option (List Record) := fun _ => some [recA, recB]

/-- A fuzzer state carrying user pass-through options that include the
reserved output flag together with its value. -/
def fzOpts : Fuzzer := { fzBase with ffuf_options := str "-o evil.json -t 5" }

/-- A fuzzer state that requested a report but has no wordlist at all. -/
def fzNoInput : Fuzzer := { fzBase with final_output_path := some (str "out") }

/-- A fuzzer state with both wordlist paths supplied. -/
def fzBoth : Fuzzer :=
  { fzBase with
    static_wordlist_path := some (str "w.txt")
    subdomain_wordlist_path := some (str "d.txt") }

/-- A fuzzer state with only the subdomain wordlist supplied. -/
def fzSub : Fuzzer := { fzBase with subdomain_wordlist_path := some (str "d.txt") }

/-- An environment where ffuf resolves but no wordlist can be obtained:
the download fails and no path names an existing file. -/
def envNone : Env :=
  { ffufResolved := some (str "ffuf")
    downloadResult := none
    isFile := fun _ => false
    probeOk := fun _ => false
    parseFile := fun _ => none }

/-- An environment where ffuf resolves, every path exists and every probe
succeeds. -/
def envAll : Env :=
  { ffufResolved := some (str "ffuf")
    downloadResult := none
    isFile := fun _ => true
    probeOk := fun _ => true
    parseFile := fun _ => none }

/-! Lemmas about stripping and marker removal. -/

theorem head_dropWhile_false {p : Char → Bool} : ∀ {l : Str} {c : Char},
    (l.dropWhile p).head? = some c → p c = false := by
  intro l
  induction l with
  | nil => intro c h; simp [List.dropWhile] at h
  | cons a t ih =>
    intro c h
    by_cases hp : p a
    · rw [List.dropWhile_cons, if_pos hp] at h
      exact ih h
    · rw [List.dropWhile_cons, if_neg hp] at h
      simp only [List.head?_cons, Option.some.injEq] at h
      simpa [← h] using hp

theorem dropWhile_eq_self_of_head {p : Char → Bool} {l : Str}
    (h : ∀ c, l.head? = some c → p c = false) : l.dropWhile p = l := by
  cases l with
  | nil => rfl
  | cons a t => rw [List.dropWhile_cons, if_neg (by simp [h a rfl])]

theorem dropWhile_dropWhile (p : Char → Bool) (l : Str) :
    (l.dropWhile p).dropWhile p = l.dropWhile p :=
  dropWhile_eq_self_of_head fun _ hc => head_dropWhile_false hc

theorem pyStrip_dropWhile (s : Str) :
    (pyStrip s).dropWhile isSpace = pyStrip s := by
  apply dropWhile_eq_self_of_head
  intro c hc
  have hsuf : ((s.dropWhile isSpace).reverse.dropWhile isSpace) <:+
      (s.dropWhile isSpace).reverse := List.dropWhile_suffix isSpace
  have hpre : pyStrip s <+: s.dropWhile isSpace := by
    have h := List.IsSuffix.reverse hsuf
    simpa [pyStrip] using h
  obtain ⟨t, ht⟩ := hpre
  apply head_dropWhile_false (l := s)
  rw [← ht, List.head?_append, hc]
  rfl

theorem pyStrip_idem (s : Str) : pyStrip (pyStrip s) = pyStrip s := by
  have h1 : pyStrip (pyStrip s) =
      ((pyStrip s).reverse.dropWhile isSpace).reverse := by
    rw [pyStrip, pyStrip_dropWhile]
  rw [h1]
  have h2 : (pyStrip s).reverse = (s.dropWhile isSpace).reverse.dropWhile isSpace := by
    simp [pyStrip]
  rw [h2, dropWhile_dropWhile]
  simp [pyStrip]



theorem removeMarker_cons_eq (c : Char) (rest : Str)
    (hne : ∀ (rest1 : List Char), c = '.' → rest = '%' :: 's' :: rest1 → False) :
    removeMarker (c :: rest) = c :: removeMarker rest := by
  rw [removeMarker.eq_def]
  split
  · rename_i rest1 heq
    injection heq with h1 h2
    exact (hne _ h1 h2).elim
  · rename_i c1 rest1 hcond heq
    injection heq with h1 h2
    rw [h1, h2]
  · rename_i heq
    cases heq

theorem hasMarker_cons_eq (c : Char) (rest : Str)
    (hne : ∀ (rest1 : List Char), c = '.' → rest = '%' :: 's' :: rest1 → False) :
    hasMarker (c :: rest) = hasMarker rest := by
  rw [hasMarker.eq_def]
  split
  · rename_i rest1 heq
    injection heq with h1 h2
    exact (hne _ h1 h2).elim
  · rename_i c1 rest1 hcond heq
    injection heq with h1 h2
    rw [h2]
  · rename_i heq
    cases heq

theorem removeMarker_eq_self : ∀ {s : Str}, hasMarker s = false → removeMarker s = s := by
  intro s
  induction s using removeMarker.induct with
  | case1 rest ih =>
    intro h
    simp [hasMarker] at h
  | case2 c rest hne ih =>
    intro h
    rw [hasMarker_cons_eq c rest hne] at h
    rw [removeMarker_cons_eq c rest hne, ih h]
  | case3 =>
    intro h
    rfl

theorem cleanLine_eq_self {t : Str} (hm : hasMarker t = false) (hs : pyStrip t = t) :
    cleanLine t = t := by
  rw [cleanLine, removeMarker_eq_self hm, hs]

theorem pyStrip_cleanLine (s : Str) : pyStrip (cleanLine s) = cleanLine s := by
  rw [cleanLine, pyStrip_idem]

theorem mem_clean_strip (l : List Str) : ∀ t ∈ cleanWordlist l, pyStrip t = t := by
  intro t ht
  rw [cleanWordlist] at ht
  obtain ⟨u, _, rfl⟩ := List.mem_map.mp ht
  exact pyStrip_cleanLine u

/-- C4 (amended): cleaning is idempotent on every wordlist whose cleaned
tokens are all non-blank and free of the `.%s` marker; (re-cleaning can
differ otherwise, see the counterexample). -/
theorem clean_idempotent (l : List Str)
    (h : ∀ t ∈ cleanWordlist l, t ≠ [] ∧ hasMarker t = false) :
    cleanWordlist (cleanWordlist l) = cleanWordlist l := by
  have hkeep : (cleanWordlist l).filter lineKept = cleanWordlist l := by
    rw [List.filter_eq_self]
    intro t ht
    have hne : t ≠ [] := (h t ht).1
    have hs : pyStrip t = t := mem_clean_strip l t ht
    simp [lineKept, hs, List.isEmpty_iff, hne]
  have hmap : (cleanWordlist l).map cleanLine = cleanWordlist l := by
    have := List.map_congr_left (l := cleanWordlist l) (f := cleanLine) (g := id)
      (fun t ht => cleanLine_eq_self (h t ht).2 (mem_clean_strip l t ht))
    simpa using this
  calc cleanWordlist (cleanWordlist l)
      = ((cleanWordlist l).filter lineKept).map cleanLine := rfl
    _ = (cleanWordlist l).map cleanLine := by rw [hkeep]
    _ = cleanWordlist l := hmap

theorem clean_idempotent_w :
    cleanWordlist (cleanWordlist [str " admin ", str "api.%s", [], str "x"]) =
      cleanWordlist [str " admin ", str "api.%s", [], str "x"] :=
  clean_idempotent _ (by decide)

theorem clean_not_idempotent :
    cleanWordlist (cleanWordlist [str ".%.%ss"]) ≠ cleanWordlist [str ".%.%ss"] := by
  decide

/-- C5 (amended): cleaning keeps exactly the lines that are non-blank
before processing — a sublist of the source, so order and duplicates are
preserved — and transforms each kept line by removing every occurrence of
the literal `.%s` marker, wherever it appears (not only at the end), and
then stripping whitespace; every resulting token carries no leading or
trailing whitespace, though blank tokens can remain (see the
counterexample). -/
theorem clean_structure (l : List Str) :
    (l.filter lineKept).Sublist l ∧
    cleanWordlist l = (l.filter lineKept).map (fun s => pyStrip (removeMarker s)) ∧
    ∀ t ∈ cleanWordlist l, pyStrip t = t :=
  ⟨List.filter_sublist l, rfl, mem_clean_strip l⟩

theorem clean_structure_w : pyStrip (str "ab") = str "ab" :=
  (clean_structure [str " a.%sb "]).2.2 (str "ab") (by decide)

theorem clean_claim_false :
    cleanWordlist [str ".%sa.%sb", str ".%s"] = [str "ab", []] ∧
    claimedCleanWordlist [str ".%sa.%sb", str ".%s"] = [str ".%sa.%sb", []] ∧
    ([] : Str) ∈ cleanWordlist [str ".%sa.%sb", str ".%s"] := by
  decide


/-! Lemmas about the consolidation scan. -/

theorem validRec_iff (r : Record) :
    ((keyOf r).1 ≠ none ∧ (keyOf r).2 ≠ none) ↔ validRec r = true := by
  simp [keyOf, validRec, Option.isSome_iff_ne_none]

theorem foldl_dedupStep (l : List Record) : ∀ (res : List Record) (seen),
    l.foldl dedupStep (res, seen) = (res ++ dedupScan seen l, seenScan seen l) := by
  induction l with
  | nil => intro res seen; simp [dedupScan, seenScan]
  | cons r rest ih =>
    intro res seen
    by_cases hc : (keyOf r).1 ≠ none ∧ (keyOf r).2 ≠ none ∧ keyOf r ∉ seen
    · simp only [List.foldl_cons, dedupStep, if_pos hc, dedupScan, seenScan, ih]
      simp
    · simp only [List.foldl_cons, dedupStep, if_neg hc, dedupScan, seenScan, ih]

theorem seenScan_append (l1 l2 : List Record) : ∀ seen,
    seenScan seen (l1 ++ l2) = seenScan (seenScan seen l1) l2 := by
  induction l1 with
  | nil => intro seen; simp [seenScan]
  | cons r rest ih =>
    intro seen
    by_cases hc : (keyOf r).1 ≠ none ∧ (keyOf r).2 ≠ none ∧ keyOf r ∉ seen
    · rw [List.cons_append, seenScan, if_pos hc, ih, seenScan, if_pos hc]
    · rw [List.cons_append, seenScan, if_neg hc, ih, seenScan, if_neg hc]

theorem dedupScan_append (l1 l2 : List Record) : ∀ seen,
    dedupScan seen (l1 ++ l2) =
      dedupScan seen l1 ++ dedupScan (seenScan seen l1) l2 := by
  induction l1 with
  | nil => intro seen; simp [dedupScan, seenScan]
  | cons r rest ih =>
    intro seen
    by_cases hc : (keyOf r).1 ≠ none ∧ (keyOf r).2 ≠ none ∧ keyOf r ∉ seen
    · rw [List.cons_append, dedupScan, if_pos hc, ih, dedupScan, if_pos hc,
        seenScan, if_pos hc, List.cons_append]
    · rw [List.cons_append, dedupScan, if_neg hc, ih, dedupScan, if_neg hc,
        seenScan, if_neg hc]

theorem consolidateFrom_eq (files : List (Option (List Record))) :
    consolidateFrom files = dedupScan [] (allRecords files) := by
  suffices h : ∀ (fs : List (Option (List Record))) (res : List Record) (seen),
      fs.foldl
        (fun acc file =>
          match file with
          | none => acc
          | some recs => recs.foldl dedupStep acc)
        (res, seen) = (res ++ dedupScan seen (allRecords fs), seenScan seen (allRecords fs)) by
    unfold consolidateFrom
    rw [h files [] []]
    simp
  intro fs
  induction fs with
  | nil => intro res seen; simp [allRecords, dedupScan, seenScan]
  | cons file rest ih =>
    intro res seen
    cases file with
    | none =>
      simp only [List.foldl_cons]
      rw [ih]
      simp [allRecords]
    | some recs =>
      have ha : allRecords (some recs :: rest) = recs ++ allRecords rest := by
        simp [allRecords]
      simp only [List.foldl_cons]
      rw [foldl_dedupStep, ih, ha, dedupScan_append, seenScan_append,
        List.append_assoc]

theorem dedupScan_all_valid (l : List Record) : ∀ seen,
    (dedupScan seen l).all validRec = true := by
  induction l with
  | nil => intro seen; rfl
  | cons r rest ih =>
    intro seen
    by_cases hc : (keyOf r).1 ≠ none ∧ (keyOf r).2 ≠ none ∧ keyOf r ∉ seen
    · rw [dedupScan, if_pos hc, List.all_cons, (validRec_iff r).mp ⟨hc.1, hc.2.1⟩,
        ih (keyOf r :: seen)]
      rfl
    · rw [dedupScan, if_neg hc]
      exact ih seen

theorem dedupScan_filter_key (l : List Record) :
    ∀ (seen : List (Option Int × Option Int)) (k : Option Int × Option Int),
    (dedupScan seen l).filter (fun r => decide (keyOf r = k)) =
      if k ∈ seen then []
      else ((l.filter validRec).filter (fun r => decide (keyOf r = k))).take 1 := by
  induction l with
  | nil =>
    intro seen k
    by_cases hk : k ∈ seen <;> simp [dedupScan, hk]
  | cons r rest ih =>
    intro seen k
    by_cases hv : validRec r = true
    case neg =>
      have hnc : ¬((keyOf r).1 ≠ none ∧ (keyOf r).2 ≠ none ∧ keyOf r ∉ seen) :=
        fun hc => hv ((validRec_iff r).mp ⟨hc.1, hc.2.1⟩)
      rw [dedupScan, if_neg hnc, ih seen k, List.filter_cons, if_neg hv]
    case pos =>
      have hv' := (validRec_iff r).mpr hv
      by_cases hseen : keyOf r ∈ seen
      · rw [dedupScan, if_neg (fun hc => hc.2.2 hseen), ih seen k]
        by_cases hk : k ∈ seen
        · simp [hk]
        · have hne : ¬(keyOf r = k) := fun h => hk (h ▸ hseen)
          simp [hk, List.filter_cons, hv, hne]
      · rw [dedupScan, if_pos ⟨hv'.1, hv'.2, hseen⟩]
        by_cases hk : keyOf r = k
        · have hks : k ∉ seen := fun h => hseen (hk ▸ h)
          rw [List.filter_cons, if_pos (by simp [hk]), ih (keyOf r :: seen) k,
            if_pos (by simp [hk]), if_neg hks, List.filter_cons, if_pos (by simp [hv]),
            List.filter_cons, if_pos (by simp [hk])]
          rfl
        · rw [List.filter_cons, if_neg (by simp [hk]), ih (keyOf r :: seen) k]
          by_cases hks : k ∈ seen
          · rw [if_pos (by simp [hks]), if_pos hks]
          · rw [if_neg (by simp [hk, hks, Ne.symm]), if_neg hks,
              List.filter_cons, if_pos (by simp [hv]), List.filter_cons,
              if_neg (by simp [hk])]

/-- C1: consolidation drops every record missing its status or its length,
and for each (status, length) key it retains exactly the first valid record
of the scan (files in tracked order, records in file order); the written
report, a permutation of the retained records, likewise contains only
records carrying both fields. -/
theorem consolidation_dedup_first_wins (files : List (Option (List Record)))
    (k : Option Int × Option Int) (parse : Str → Option (List Record)) (f : Fuzzer) :
    (consolidateFrom files).filter (fun r => decide (keyOf r = k)) =
      (((allRecords files).filter validRec).filter (fun r => decide (keyOf r = k))).take 1 ∧
    (consolidateFrom files).all validRec = true ∧
    ((consolidateResults parse f).getD []).all validRec = true := by
  refine ⟨?_, ?_, ?_⟩
  · rw [consolidateFrom_eq, dedupScan_filter_key]
    simp
  · rw [consolidateFrom_eq]
    exact dedupScan_all_valid _ _
  · rw [consolidateResults]
    split
    · rfl
    · set res := consolidateFrom (f.temp_ffuf_output_files.map parse) with hres
      dsimp only
      split
      · rfl
      · simp only [Option.getD_some]
        rw [List.all_eq_true]
        intro r hr
        have hmem : r ∈ res := (List.mergeSort_perm res sortLE).mem_iff.mp hr
        have hall : res.all validRec = true := by
          rw [hres, consolidateFrom_eq]
          exact dedupScan_all_valid _ _
        exact List.all_eq_true.mp hall r hmem


/-! Lemmas about the final ordering. -/

theorem lexLe_total : ∀ s t : Str, (lexLe s t || lexLe t s) = true
  | [], t => by simp [lexLe]
  | c :: s, [] => by simp [lexLe]
  | a :: s, b :: t => by
    rcases lt_trichotomy a b with h | h | h
    · simp [lexLe, h]
    · subst h
      simpa [lexLe] using lexLe_total s t
    · simp [lexLe, h, lt_asymm h, (ne_of_gt h)]

theorem lexLe_trans : ∀ s t u : Str,
    lexLe s t = true → lexLe t u = true → lexLe s u = true
  | [], _, _, _, _ => rfl
  | a :: s, [], _, h1, _ => by simp [lexLe] at h1
  | a :: s, b :: t, [], _, h2 => by simp [lexLe] at h2
  | a :: s, b :: t, c :: u, h1, h2 => by
    by_cases hab : a < b
    · by_cases hbc : b < c
      · simp [lexLe, lt_trans hab hbc]
      · by_cases hbc' : b = c
        · simp [lexLe, hbc' ▸ hab]
        · simp [lexLe, hbc, hbc'] at h2
    · by_cases hab' : a = b
      · subst hab'
        by_cases hbc : a < c
        · simp [lexLe, hbc]
        · by_cases hbc' : a = c
          · subst hbc'
            simp [lexLe, lt_irrefl] at h1 h2 ⊢
            exact lexLe_trans s t u h1 h2
          · simp [lexLe, hbc, hbc'] at h2
      · simp [lexLe, hab, hab'] at h1

theorem sortLE_trans : ∀ a b c : Record,
    sortLE a b = true → sortLE b c = true → sortLE a c = true := by
  intro a b c h1 h2
  simp only [sortLE, Bool.or_eq_true, Bool.and_eq_true, decide_eq_true_eq] at h1 h2 ⊢
  rcases h1 with h1 | ⟨h1, h1l⟩
  · rcases h2 with h2 | ⟨h2, _⟩
    · exact Or.inl (lt_trans h1 h2)
    · exact Or.inl (h2 ▸ h1)
  · rcases h2 with h2 | ⟨h2, h2l⟩
    · exact Or.inl (h1 ▸ h2)
    · exact Or.inr ⟨h1.trans h2, lexLe_trans _ _ _ h1l h2l⟩

theorem sortLE_total : ∀ a b : Record, (sortLE a b || sortLE b a) = true := by
  intro a b
  simp only [sortLE, Bool.or_eq_true, Bool.and_eq_true, decide_eq_true_eq]
  rcases lt_trichotomy (statusKey a) (statusKey b) with h | h | h
  · exact Or.inl (Or.inl h)
  · rcases Bool.or_eq_true _ _ |>.mp (lexLe_total (hostKey a) (hostKey b)) with hl | hl
    · exact Or.inl (Or.inr ⟨h, hl⟩)
    · exact Or.inr (Or.inr ⟨h.symm, hl⟩)
  · exact Or.inr (Or.inl h)

theorem sortLE_implies_specOrder (a b : Record) (h : sortLE a b = true) :
    specOrder a b := by
  simp only [sortLE, Bool.or_eq_true, Bool.and_eq_true, decide_eq_true_eq] at h
  rcases h with h | ⟨h, hl⟩
  · exact ⟨le_of_lt h, fun he => absurd (he ▸ h) (lt_irrefl _)⟩
  · exact ⟨le_of_eq h, fun _ => hl⟩

/-- C2: whenever a consolidated report is produced, its records are
ordered so that adjacent statuses ascend, and among equal statuses the
host values (missing host read as the empty string) ascend
lexicographically. -/
theorem consolidation_sorted (parse : Str → Option (List Record)) (f : Fuzzer)
    (rs : List Record) (h : consolidateResults parse f = some rs) :
    rs.Chain' specOrder := by
  rw [consolidateResults] at h
  split at h
  · cases h
  · dsimp only at h
    split at h
    · cases h
    · have hrs : rs = (consolidateFrom (f.temp_ffuf_output_files.map parse)).mergeSort sortLE :=
        (Option.some.injEq _ _ ▸ h).symm
      subst hrs
      have hp := @List.sorted_mergeSort Record sortLE
        (fun a b c => sortLE_trans a b c) (fun a b => sortLE_total a b)
        (consolidateFrom (f.temp_ffuf_output_files.map parse))
      exact (hp.chain').imp (fun a b hab => sortLE_implies_specOrder a b hab)

theorem consolidation_sorted_w : List.Chain' specOrder [recB, recA] :=
  consolidation_sorted parseTwo fzReport [recB, recA] (by
    rw [consolidateResults, if_neg (by decide)]
    dsimp only
    rw [show consolidateFrom (fzReport.temp_ffuf_output_files.map parseTwo)
        = [recA, recB] from by decide]
    rw [if_neg (by decide)]
    simp [List.mergeSort, List.merge, sortLE, statusKey, recA, recB])


/-! The mode plan of `run_fuzzing`. -/

/-- C3 (amended): whenever the ffuf executable resolves, `run_fuzzing`
completes without a fatal error, and the probes it performs are exactly:
`static` then `static_append` sharing the static wordlist when that
wordlist is usable, then `subdomain` with the subdomain wordlist when that
one is usable; with no usable wordlist the plan is empty and the run still
completes normally (no "no input" failure is raised). -/
theorem run_plan (env : Env) (f0 : Fuzzer) (ffufExec : Str)
    (h : env.ffufResolved = some ffufExec) :
    ∃ invs f2 rep, runFuzzing env f0 = .ok (invs, f2, rep) ∧
      invs.map (fun i => (i.mode, i.wordlist)) = planOf env f0 ∧
      (planOf env f0 = [] → invs = []) := by
  rw [runFuzzing, h]
  dsimp only
  set f1 := (if optFilled f0.static_wordlist_path then f0
    else { f0 with static_wordlist_path := env.downloadResult }) with hf1
  refine ⟨_, _, _, rfl, ?_, ?_⟩
  · rw [planOf, ← hf1]
    by_cases hst : staticAvailable env f1 <;>
      by_cases hsub : subdomainAvailable env f1 <;>
        simp [hst, hsub, runMode]
  · intro hplan
    rw [planOf, ← hf1] at hplan
    by_cases hst : staticAvailable env f1 <;>
      by_cases hsub : subdomainAvailable env f1 <;>
        simp [hst, hsub, runMode] at hplan ⊢

theorem run_plan_w :
    ∃ invs f2 rep, runFuzzing envAll fzBoth = .ok (invs, f2, rep) ∧
      invs.map (fun i => (i.mode, i.wordlist)) = planOf envAll fzBoth ∧
      (planOf envAll fzBoth = [] → invs = []) :=
  run_plan envAll fzBoth (str "ffuf") rfl

theorem run_no_input_not_fatal :
    runFuzzing envNone fzNoInput = .ok ([], fzNoInput, none) ∧
    runFuzzing envNone fzNoInput ≠ .error RunError.ffufNotFound :=
  ⟨rfl, fun hc => Except.noConfusion hc⟩


/-! State-preservation lemmas for `runMode` and `run_fuzzing`. -/

theorem runMode_fst (env : Env) (ex : Str) (acc : List Invocation × Fuzzer)
    (m : Mode) (w : Str) :
    (runMode env ex acc m w).1 =
      acc.1 ++ [⟨m, w, (buildFfufCommand acc.2 m w ex).1,
        (buildFfufCommand acc.2 m w ex).2⟩] := rfl

theorem runMode_state (env : Env) (ex : Str) (acc : List Invocation × Fuzzer)
    (m : Mode) (w : Str) :
    ∃ tr, (runMode env ex acc m w).2 =
      { acc.2 with temp_ffuf_output_files := tr } := by
  cases htemp : (buildFfufCommand acc.2 m w ex).2 with
  | none =>
    refine ⟨acc.2.temp_ffuf_output_files, ?_⟩
    rw [runMode]
    dsimp only
    rw [htemp]
  | some t =>
    by_cases hp : env.probeOk m = true
    · refine ⟨acc.2.temp_ffuf_output_files ++ [t], ?_⟩
      rw [runMode]
      dsimp only
      rw [htemp]
      dsimp only
      rw [if_pos hp]
    · refine ⟨acc.2.temp_ffuf_output_files, ?_⟩
      rw [runMode]
      dsimp only
      rw [htemp]
      dsimp only
      rw [if_neg hp]

theorem runMode_final_out (env : Env) (ex : Str) (acc : List Invocation × Fuzzer)
    (m : Mode) (w : Str) :
    (runMode env ex acc m w).2.final_output_path = acc.2.final_output_path := by
  obtain ⟨tr, htr⟩ := runMode_state env ex acc m w
  rw [htr]

theorem runMode_target_url (env : Env) (ex : Str) (acc : List Invocation × Fuzzer)
    (m : Mode) (w : Str) :
    (runMode env ex acc m w).2.target_url = acc.2.target_url := by
  obtain ⟨tr, htr⟩ := runMode_state env ex acc m w
  rw [htr]

theorem runMode_target_domain (env : Env) (ex : Str) (acc : List Invocation × Fuzzer)
    (m : Mode) (w : Str) :
    (runMode env ex acc m w).2.target_domain = acc.2.target_domain := by
  obtain ⟨tr, htr⟩ := runMode_state env ex acc m w
  rw [htr]

theorem build_out_none (f : Fuzzer) (m : Mode) (wl ex : Str)
    (h : f.final_output_path = none) :
    (buildFfufCommand f m wl ex).2 = none := by
  rw [buildFfufCommand]
  dsimp only
  rw [plannerTokens]
  dsimp only
  rw [h]

theorem consolidateResults_out_none (parse : Str → Option (List Record))
    (f : Fuzzer) (h : f.final_output_path = none) :
    consolidateResults parse f = none := by
  rw [consolidateResults, h]
  rfl

theorem runFuzzing_ok (env : Env) (f0 : Fuzzer) (ex : Str)
    (h : env.ffufResolved = some ex) :
    ∃ invs f2, runFuzzing env f0 = .ok (invs, f2, consolidateResults env.parseFile f2) ∧
      f2.final_output_path = f0.final_output_path ∧
      f2.target_url = f0.target_url ∧ f2.target_domain = f0.target_domain ∧
      (f0.final_output_path = none →
        invs.all (fun i => i.tempOut.isNone) = true) := by
  rw [runFuzzing, h]
  set f1 := (if optFilled f0.static_wordlist_path then f0
    else { f0 with static_wordlist_path := env.downloadResult }) with hf1
  have hf1p : f1.final_output_path = f0.final_output_path ∧
      f1.target_url = f0.target_url ∧ f1.target_domain = f0.target_domain := by
    rw [hf1]
    split <;> exact ⟨rfl, rfl, rfl⟩
  refine ⟨_, _, rfl, ?_, ?_, ?_, ?_⟩
  · by_cases hst : staticAvailable env f1 = true <;>
      by_cases hsub : subdomainAvailable env f1 = true <;>
        simp [hst, hsub, runMode_final_out, hf1p.1]
  · by_cases hst : staticAvailable env f1 = true <;>
      by_cases hsub : subdomainAvailable env f1 = true <;>
        simp [hst, hsub, runMode_target_url, hf1p.2.1]
  · by_cases hst : staticAvailable env f1 = true <;>
      by_cases hsub : subdomainAvailable env f1 = true <;>
        simp [hst, hsub, runMode_target_domain, hf1p.2.2]
  · intro hout
    have hf1n : f1.final_output_path = none := hf1p.1.trans hout
    by_cases hst : staticAvailable env f1 = true <;>
      by_cases hsub : subdomainAvailable env f1 = true <;>
        simp [hst, hsub, runMode_fst, List.all_append, List.all_cons] <;>
          first
            | exact ⟨build_out_none _ _ _ _ hf1n,
                build_out_none _ _ _ _ ((runMode_final_out env ex _ _ _).trans hf1n),
                build_out_none _ _ _ _ ((runMode_final_out env ex _ _ _).trans
                  ((runMode_final_out env ex _ _ _).trans hf1n))⟩
            | exact ⟨build_out_none _ _ _ _ hf1n,
                build_out_none _ _ _ _ ((runMode_final_out env ex _ _ _).trans hf1n)⟩
            | exact build_out_none _ _ _ _ hf1n


/-- C9: when no output base path is supplied, no probe invocation requests
a structured-output path, and consolidation produces no report, regardless
of how the probes fared. -/
theorem no_output_no_report (env : Env) (f0 : Fuzzer)
    (invs : List Invocation) (f2 : Fuzzer) (rep : Option (List Record))
    (hout : f0.final_output_path = none)
    (hrun : runFuzzing env f0 = .ok (invs, f2, rep)) :
    invs.all (fun i => i.tempOut.isNone) = true ∧ rep = none := by
  cases henv : env.ffufResolved with
  | none =>
    rw [runFuzzing, henv] at hrun
    cases hrun
  | some ex =>
    obtain ⟨invs2, f3, heq, hfin, hu, hd, hall⟩ := runFuzzing_ok env f0 ex henv
    rw [heq] at hrun
    injection hrun with h3
    obtain ⟨h4, h5, h6⟩ : invs2 = invs ∧ f3 = f2 ∧
        consolidateResults env.parseFile f3 = rep := by
      simpa [Prod.ext_iff] using h3
    constructor
    · rw [← h4]
      exact hall hout
    · rw [← h6]
      exact consolidateResults_out_none _ _ (hfin.trans hout)

theorem no_output_no_report_w :
    ([⟨Mode.subdomain, str "d.txt",
        (buildFfufCommand fzSub Mode.subdomain (str "d.txt") (str "ffuf")).1, none⟩]
      : List Invocation).all (fun i => i.tempOut.isNone) = true ∧
    (none : Option (List Record)) = none :=
  no_output_no_report envAll fzSub _ fzSub none rfl rfl


/-- C10: `cleanup` resets the tracked per-mode output list and nothing
else: the filesystem passes through unchanged on every exit path, so all
result files that were written remain on disk as they were. -/
theorem cleanup_frame (f : Fuzzer) (fs : FileSystem) :
    (cleanup f fs).2 = fs ∧
    (cleanup f fs).1 = { f with temp_ffuf_output_files := [] } :=
  ⟨rfl, rfl⟩

/-- C6 (amended): every token of the built command is either one of the
tokens the planner set itself, or one of the user's whitespace-split
option tokens that is none of the reserved flags `-mc`, `-o`, `-of`, `-s`;
only the flag tokens themselves are removed, so a value attached to a
dropped flag survives (see the counterexample). -/
theorem build_sanitizes (f : Fuzzer) (m : Mode) (wl ex t : Str)
    (h : t ∈ (buildFfufCommand f m wl ex).1) :
    t ∈ (plannerTokens f m wl ex).1 ∨
      (t ∈ pySplit f.ffuf_options ∧ t ∉ reservedOpts) := by
  rw [buildFfufCommand] at h
  dsimp only at h
  rw [List.mem_append] at h
  rcases h with h | h
  · exact Or.inl h
  · right
    by_cases ho : f.ffuf_options.isEmpty = true
    · rw [if_pos ho] at h
      cases h
    · rw [if_neg ho] at h
      rw [extraOptsOf, List.mem_filter] at h
      exact ⟨h.1, by simpa using h.2⟩

theorem build_sanitizes_w :
    str "-t" ∈ (plannerTokens fzOpts Mode.static (str "w.txt") (str "ffuf")).1 ∨
      (str "-t" ∈ pySplit fzOpts.ffuf_options ∧ str "-t" ∉ reservedOpts) :=
  build_sanitizes fzOpts Mode.static (str "w.txt") (str "ffuf") (str "-t") (by decide)

theorem build_keeps_option_value :
    str "evil.json" ∈ (buildFfufCommand fzOpts Mode.static (str "w.txt") (str "ffuf")).1 ∧
    str "-o" ∉ (buildFfufCommand fzOpts Mode.static (str "w.txt") (str "ffuf")).1 := by
  decide

/-- C7: for every successfully constructed target, the `static` and
`subdomain` modes use the header template `Host: FUZZ`, the
`static_append` mode uses `Host: FUZZ.<base domain>`, the base domain
contains no colon (so no port ever appears in the header value), and the
built command carries `-H` followed by exactly that template. -/
theorem header_templates (url : Str) (sw dw : Option Str) (fp : Str)
    (out : Option Str) (opts mc : Str) (f : Fuzzer)
    (h : initFuzzer url sw dw fp out opts mc = some f) :
    hostHeader Mode.static f.target_domain = str "Host: FUZZ" ∧
    hostHeader Mode.subdomain f.target_domain = str "Host: FUZZ" ∧
    hostHeader Mode.static_append f.target_domain =
      str "Host: FUZZ." ++ f.target_domain ∧
    (∀ c ∈ f.target_domain, c ≠ ':') ∧
    ∀ (m : Mode) (wl ex : Str), ∃ rest,
      (buildFfufCommand f m wl ex).1 =
        ex :: str "-u" :: f.target_url :: str "-w" :: wl ::
        str "-mc" :: f.match_codes_str :: str "-s" ::
        str "-H" :: hostHeader m f.target_domain :: rest := by
  have hdom : ∃ u, f.target_domain = targetDomainOf u := by
    rw [initFuzzer] at h
    cases hv : validateUrl url with
    | none =>
      rw [hv] at h
      cases h
    | some u =>
      rw [hv] at h
      injection h with h2
      exact ⟨u, by rw [← h2]⟩
  refine ⟨rfl, rfl, rfl, ?_, ?_⟩
  · obtain ⟨u, hu⟩ := hdom
    intro c hc
    rw [hu, targetDomainOf] at hc
    simpa using List.mem_takeWhile_imp hc
  · intro m wl ex
    rw [buildFfufCommand]
    dsimp only
    rw [plannerTokens]
    dsimp only
    cases hfp : f.final_output_path with
    | none =>
      dsimp only
      refine ⟨if f.ffuf_options.isEmpty = true then [] else extraOptsOf f.ffuf_options, ?_⟩
      simp
    | some p =>
      dsimp only
      by_cases hp : p.isEmpty = true
      · rw [if_pos hp]
        refine ⟨if f.ffuf_options.isEmpty = true then [] else extraOptsOf f.ffuf_options, ?_⟩
        simp
      · rw [if_neg hp]
        refine ⟨[str "-o", p ++ str "_" ++ modeName m ++ str ".json", str "-of", str "json"] ++
          (if f.ffuf_options.isEmpty = true then [] else extraOptsOf f.ffuf_options), ?_⟩
        simp

theorem header_templates_w :
    hostHeader Mode.static_append fzBase.target_domain =
      str "Host: FUZZ." ++ fzBase.target_domain :=
  (header_templates (str "example.com:8080") none none (str "ffuf") none []
    (str "200,301") { fzBase with target_url := str "http://example.com:8080" }
    (by decide)).2.2.1

/-- C8: construction prepends `http://` exactly when the URL has no
`http(s)` scheme, fails exactly when the normalised URL's authority
(netloc) is empty, fixes the normalised URL and derived base domain at
construction, and `run_fuzzing` never changes them afterwards. -/
theorem url_validation (url : Str) (sw dw : Option Str) (fp : Str)
    (out : Option Str) (opts mc : Str) :
    (hasScheme url = false → normalizeUrl url = str "http://" ++ url) ∧
    (hasScheme url = true → normalizeUrl url = url) ∧
    (initFuzzer url sw dw fp out opts mc = none ↔
      netlocOf (normalizeUrl url) = []) ∧
    (∀ f, initFuzzer url sw dw fp out opts mc = some f →
      f.target_url = normalizeUrl url ∧
      f.target_domain = targetDomainOf (normalizeUrl url)) ∧
    (∀ (env : Env) (f : Fuzzer) invs f2 rep,
      runFuzzing env f = .ok (invs, f2, rep) →
      f2.target_url = f.target_url ∧ f2.target_domain = f.target_domain) := by
  refine ⟨?_, ?_, ?_, ?_, ?_⟩
  · intro hs
    rw [normalizeUrl, if_neg (by simp [hs])]
  · intro hs
    rw [normalizeUrl, if_pos hs]
  · rw [initFuzzer, Option.map_eq_none', validateUrl]
    constructor
    · intro hv
      split at hv
      · rename_i hcond
        exact List.isEmpty_iff.mp hcond
      · cases hv
    · intro hv
      rw [if_pos (show (netlocOf (normalizeUrl url)).isEmpty = true by rw [hv]; rfl)]
  · intro f hf
    rw [initFuzzer] at hf
    cases hv : validateUrl url with
    | none =>
      rw [hv] at hf
      cases hf
    | some u =>
      rw [hv] at hf
      injection hf with h2
      have hu : u = normalizeUrl url := by
        rw [validateUrl] at hv
        split at hv
        · cases hv
        · injection hv with h3
          exact h3.symm
      rw [← h2, hu]
      exact ⟨rfl, rfl⟩
  · intro env f invs f2 rep hrun
    cases henv : env.ffufResolved with
    | none =>
      rw [runFuzzing, henv] at hrun
      cases hrun
    | some ex =>
      obtain ⟨invs2, f3, heq, hfin2, hu2, hd2, hall2⟩ := runFuzzing_ok env f ex henv
      rw [heq] at hrun
      injection hrun with h3
      obtain ⟨h4, h5, h6⟩ : invs2 = invs ∧ f3 = f2 ∧
          consolidateResults env.parseFile f3 = rep := by
        simpa [Prod.ext_iff] using h3
      exact ⟨h5 ▸ hu2, h5 ▸ hd2⟩

theorem url_validation_w :
    normalizeUrl (str "example.com") = str "http://" ++ str "example.com" :=
  (url_validation (str "example.com") none none (str "ffuf") none []
    (str "200,301")).1 (by decide)

end HostHeaderFuzzer
